import Mathlib

/-!
Verification of the language-file build task (`src/gulp/task-build-lang.js`).

The task merges many small per-module JSON translation files into one
combined dictionary.  We give a shallow embedding of its pure core:

* JavaScript objects are modelled as insertion-ordered association lists
  (`objGet` / `objSet` mirror property read and property assignment; keys
  here are dotted identifiers and relative paths, never array indices, so
  plain insertion order models `for...in` / `Object.keys` enumeration).
* Strings are Lean `String`s; the string manipulation the task performs
  (`split`, `lastIndexOf`, `substr`, `endsWith`, `join`) is implemented
  over the underlying character lists, mirroring the JavaScript methods.
* `JSON.parse` results are modelled as parsed objects (`Option Obj`:
  `none` is a file whose contents fail to parse); the flat string-to-string
  shape follows the data model of the translation files.
* The returned `Buffer` is modelled by the UTF-8 string it holds, so
  byte-identical output is string equality.
-/

namespace BuildLang

/-- A JavaScript object with values of type `α`, as an insertion-ordered
association list. -/
abbrev Obj (α : Type) : Type := List (String × α)

/-- Property read: `o[k]`, `undefined` becoming `none`. -/
def objGet {α : Type} : Obj α → String → Option α
  | [], _ => none
  | (q, w) :: rest, k => if q = k then some w else objGet rest k

/-- Property assignment `o[k] = v`: an existing property is updated in
place (its position is kept), a new property is appended. -/
def objSet {α : Type} : Obj α → String → α → Obj α
  | [], k, v => [(k, v)]
  | (q, w) :: rest, k, v => if q = k then (k, v) :: rest else (q, w) :: objSet rest k v

/-- The keys of an object, in enumeration order. -/
def objKeys {α : Type} (o : Obj α) : List String := o.map Prod.fst

/-- `addProperties(target, source, prefix)` from the task: for every own
property of `source`, in enumeration order, write
`target[prefix + property] = source[property]`. -/
def addProperties (target source : Obj String) (pfx : String) : Obj String :=
  source.foldl (fun t kv => objSet t (pfx ++ kv.1) kv.2) target

/-- JavaScript `str.split(regex)` over a character class: split the
character list at every separator character; `""` splits to `[""]`. -/
def splitChars (p : Char → Bool) : List Char → List (List Char)
  | [] => [[]]
  | c :: rest =>
    if p c then [] :: splitChars p rest
    else
      match splitChars p rest with
      | [] => [[c]]
      | h :: t => (c :: h) :: t

/-- `path.split(/[\/\\]/)`: split a path on forward and back slashes. -/
def splitPath (path : String) : List String :=
  (splitChars (fun c => c == '/' || c == '\\') path.toList).map String.mk

/-- JavaScript `arr.join(sep)`. -/
def joinSep (sep : String) : List String → String
  | [] => ""
  | [s] => s
  | s :: rest => s ++ sep ++ joinSep sep rest

/-- Reading `arr[i]` inside a template literal: an out-of-range index is
`undefined`, which a template literal renders as the string
`"undefined"`. -/
def jsIdx (l : List String) (i : Nat) : String := (l.get? i).getD "undefined"

/-- The `getPrefix` closure of `treatMergedData`: split the logical path
on separators, pop the final segment as the filename, and route on the
first remaining folder (`switch` uses strict string equality, so an
`undefined` `folders[0]` falls to the default branch). -/
def getPrefix (path : String) : String :=
  let parts := splitPath path
  let folders := parts.dropLast
  let filename := (parts.getLast?).getD ""
  if folders.get? 0 = some "core" then
    if folders.get? 1 = some "features" then "core." ++ jsIdx folders 2 ++ "." else "core."
  else if folders.get? 0 = some "addons" then
    "addon." ++ joinSep "_" (folders.drop 1) ++ "."
  else if folders.get? 0 = some "assets" then
    "assets." ++ joinSep "." (((splitChars (fun c => c == '.') filename.toList).map String.mk).dropLast) ++ "."
  else
    jsIdx folders 0 ++ "." ++ jsIdx folders 1 ++ "."

/-- JavaScript `s.lastIndexOf(pat)` for a non-empty `pat`, as an
`Option`: the largest index at which `pat` occurs, `none` for `-1`. -/
def lastIdx (s pat : List Char) : Option Nat :=
  ((List.range (s.length + 1)).filter (fun i => pat.isPrefixOf (s.drop i))).getLast?

/-- The path normalization of `treatFile`: find the rightmost source-root
marker, preferring the deep `/src/app/` marker (and its backslash form)
over the shallow `/src/` marker, and keep the substring after it.  When
no marker occurs, `srcPos` is `-1` and `prefixLength` is `5`, so
`substr(srcPos + prefixLength)` drops the first 4 characters. -/
def treatFilePath (path : String) : String :=
  let s := path.toList
  match lastIdx s ("/src/app/".toList) with
  | some p => String.mk (s.drop (p + 9))
  | none =>
    match lastIdx s ("\\src\\app\\".toList) with
    | some p => String.mk (s.drop (p + 9))
    | none =>
      match lastIdx s ("/src/".toList) with
      | some p => String.mk (s.drop (p + 5))
      | none =>
        match lastIdx s ("\\src\\".toList) with
        | some p => String.mk (s.drop (p + 5))
        | none => String.mk (s.drop 4)

/-- The accumulated data of one run: logical path to parsed object. -/
abbrev DataMap : Type := Obj (Obj String)

/-- `treatFile(file, data)`: normalize the path and store the parsed
contents under it.  A file whose contents fail `JSON.parse` (`none`)
throws inside the `try`, the error is caught and logged, and `data` is
left unchanged. -/
def treatFile (path : String) (contents : Option (Obj String)) (data : DataMap) : DataMap :=
  match contents with
  | none => data
  | some o => objSet data (treatFilePath path) o

/-- The streaming stage of `run`: each discovered file is treated in
order against the shared `data` object. -/
def treatFiles (files : List (String × Option (Obj String))) (data : DataMap) : DataMap :=
  files.foldl (fun d f => treatFile f.1 f.2 d) data

/-- JavaScript `path.endsWith(suffix)`. -/
def endsWithS (s suffix : String) : Bool := suffix.toList.isSuffixOf s.toList

/-- The path-resolution step of `run`: a path already ending in `.json`
is kept; any other path gets `lang.json` appended, with a `/` inserted
first unless the path already ends in one. -/
def resolveLangPath (path : String) : String :=
  if endsWithS path ".json" then path
  else (if endsWithS path "/" then path else path ++ "/") ++ "lang.json"

/-- One hexadecimal digit, lower case, as `JSON.stringify` emits it. -/
def hexDigit (n : Nat) : Char :=
  if n < 10 then Char.ofNat (48 + n) else Char.ofNat (87 + n)

/-- The escaping `JSON.stringify` applies inside a string literal. -/
def jsonEscapeChar (c : Char) : String :=
  if c = '"' then "\\\""
  else if c = '\\' then "\\\\"
  else if c = '\n' then "\\n"
  else if c = '\r' then "\\r"
  else if c = '\t' then "\\t"
  else if c = '\x08' then "\\b"
  else if c = '\x0c' then "\\f"
  else if c.toNat < 32 then
    String.mk ['\\', 'u', '0', '0', hexDigit (c.toNat / 16), hexDigit (c.toNat % 16)]
  else String.mk [c]

/-- A JSON string literal for `s`. -/
def quoteJson (s : String) : String :=
  "\"" ++ String.join (s.toList.map jsonEscapeChar) ++ "\""

/-- `JSON.stringify(o, null, 4)` for a flat object of string values:
4-space indentation, one property per line, no trailing newline. -/
def jsonStringify (o : Obj String) : String :=
  match o with
  | [] => "\x7b\x7d"
  | _ =>
    "\x7b\n" ++
      joinSep ",\n" (o.map (fun kv => "    " ++ quoteJson kv.1 ++ ": " ++ quoteJson kv.2)) ++
      "\n\x7d"

/-- Code-unit comparison of two character lists, as JavaScript `<`
compares strings (the keys here are ASCII, where code-unit and
code-point order agree). -/
def strLeChars : List Char → List Char → Bool
  | [], _ => true
  | _ :: _, [] => false
  | a :: as, b :: bs => if a = b then strLeChars as bs else decide (a.toNat < b.toNat)

/-- `a <= b` in the string order `Array.prototype.sort` uses by default. -/
def strLe (a b : String) : Bool := strLeChars a.toList b.toList

/-- Insert a key into an already sorted key list. -/
def insertKey (k : String) : List String → List String
  | [] => [k]
  | x :: xs => if strLe k x then k :: x :: xs else x :: insertKey k xs

/-- `Object.keys(merged).sort()`: the sorted rearrangement of a key
list (keys of one object are pairwise distinct, so any correct sort
produces this same list). -/
def sortKeys : List String → List String
  | [] => []
  | k :: rest => insertKey k (sortKeys rest)

/-- The merging loop of `treatMergedData`: fold `addProperties` over the
accumulated data in enumeration order; `if (prefix)` skips an artifact
only when its prefix is the empty string. -/
def mergedOf (data : DataMap) : Obj String :=
  data.foldl
    (fun m kv =>
      let pfx := getPrefix kv.1
      if pfx = "" then m else addProperties m kv.2 pfx)
    []

/-- The reordering loop of `treatMergedData`: rebuild the object by
writing the properties back in sorted key order. -/
def orderObj (m : Obj String) : Obj String :=
  (sortKeys (objKeys m)).foldl
    (fun mo k =>
      match objGet m k with
      | some v => objSet mo k v
      | none => mo)
    []

/-- The object `treatMergedData` serializes. -/
def mergedOrderedOf (data : DataMap) : Obj String := orderObj (mergedOf data)

/-- `treatMergedData(data)`: merge with prefixes, reorder by sorted key,
render with `JSON.stringify(_, null, 4)` (the resulting `Buffer`
modelled by the string it encodes). -/
def treatMergedData (data : DataMap) : String :=
  jsonStringify (mergedOrderedOf data)

/-- The value of the last property of `source` whose prefixed key is `k`. -/
def lastMatch (pfx k : String) : Obj String → Option String
  | [] => none
  | kv :: rest =>
    match lastMatch pfx k rest with
    | some v => some v
    | none => if pfx ++ kv.1 = k then some kv.2 else none

/-- The contribution of one artifact to the merged object at key `k`. -/
def contribOf (a : String × Obj String) (k : String) : Option String :=
  lastMatch (getPrefix a.1) k a.2

/-- The value the merge loop leaves at key `k`: the artifact processed
last wins. -/
def mlookup : DataMap → String → Option String
  | [], _ => none
  | a :: rest, k =>
    match mlookup rest k with
    | some v => some v
    | none => contribOf a k

/-- Two artifacts contribute disjoint prefixed key sets. -/
def DisjointContrib (a b : String × Obj String) : Prop :=
  ∀ k, contribOf a k = none ∨ contribOf b k = none

/-- The order the serializer sorts keys by, as a relation. -/
def KeyLe (a b : String) : Prop := strLe a b = true

/-- A concrete one-artifact data object used in the C1 witness. -/
def exData1 : DataMap := [("core/a.json", [("k", "v")])]

/-- Two-artifact data object with disjoint prefixed keys, first order. -/
def exD1 : DataMap := [("core/a.json", [("x", "1")]), ("core/b.json", [])]

/-- The same two artifacts in the other insertion order. -/
def exD2 : DataMap := [("core/b.json", []), ("core/a.json", [("x", "1")])]

/-! ### Basic object lemmas -/

theorem objGet_objSet {α : Type} (o : Obj α) (k k' : String) (v : α) :
    objGet (objSet o k v) k' = if k' = k then some v else objGet o k' := by
  induction o with
  | nil =>
    simp only [objSet, objGet]
    by_cases h : k = k'
    · simp [h]
    · simp [h, Ne.symm h]
  | cons p rest ih =>
    obtain ⟨q, w⟩ := p
    by_cases hqk : q = k
    · subst hqk
      by_cases h : k' = q <;> simp [objSet, objGet, h, eq_comm]
    · by_cases h : k' = q
      · subst h
        simp [objSet, hqk, objGet, Ne.symm hqk]
      · simp [objSet, hqk, objGet, h, Ne.symm h, ih]

theorem objKeys_cons {α : Type} (p : String × α) (o : Obj α) :
    objKeys (p :: o) = p.1 :: objKeys o := rfl

theorem objKeys_objSet {α : Type} (o : Obj α) (k : String) (v : α) :
    objKeys (objSet o k v) =
      if k ∈ objKeys o then objKeys o else objKeys o ++ [k] := by
  induction o with
  | nil => simp [objSet, objKeys]
  | cons p rest ih =>
    obtain ⟨q, w⟩ := p
    by_cases h : q = k
    · subst h
      simp [objSet, objKeys]
    · simp [objSet, h, objKeys_cons, ih, Ne.symm h]
      split <;> simp

theorem mem_objKeys_objSet {α : Type} (o : Obj α) (k k' : String) (v : α) :
    k ∈ objKeys (objSet o k' v) ↔ k ∈ objKeys o ∨ k = k' := by
  rw [objKeys_objSet]
  split
  · next h =>
    constructor
    · exact Or.inl
    · rintro (hk | rfl) <;> assumption
  · simp

theorem nodup_objKeys_objSet {α : Type} (o : Obj α) (k : String) (v : α)
    (h : (objKeys o).Nodup) : (objKeys (objSet o k v)).Nodup := by
  rw [objKeys_objSet]
  split
  · exact h
  · next hk => simp [List.nodup_append, h, hk]

theorem objSet_objSet_same {α : Type} (o : Obj α) (k : String) (a b : α) :
    objSet (objSet o k a) k b = objSet o k b := by
  induction o with
  | nil => simp [objSet]
  | cons p rest ih =>
    obtain ⟨q, w⟩ := p
    by_cases h : q = k <;> simp [objSet, h, ih]

theorem mem_objKeys_iff_objGet {α : Type} (o : Obj α) (k : String) :
    k ∈ objKeys o ↔ ∃ v, objGet o k = some v := by
  induction o with
  | nil => simp [objKeys, objGet]
  | cons p rest ih =>
    obtain ⟨q, w⟩ := p
    by_cases h : q = k
    · subst h
      simp [objKeys_cons, objGet]
    · simp [objKeys_cons, objGet, h, Ne.symm h, ih]

/-! ### `addProperties` lemmas -/

theorem addProperties_nil (target : Obj String) (pfx : String) :
    addProperties target [] pfx = target := rfl

theorem addProperties_cons (target : Obj String) (kv : String × String)
    (source : Obj String) (pfx : String) :
    addProperties target (kv :: source) pfx
      = addProperties (objSet target (pfx ++ kv.1) kv.2) source pfx := rfl

theorem objGet_addProperties (target source : Obj String) (pfx k : String) :
    objGet (addProperties target source pfx) k =
      match lastMatch pfx k source with
      | some v => some v
      | none => objGet target k := by
  induction source generalizing target with
  | nil => rfl
  | cons kv rest ih =>
    rw [addProperties_cons, ih]
    rcases hrest : lastMatch pfx k rest with _ | v
    · simp only [lastMatch, hrest, objGet_objSet]
      by_cases h : pfx ++ kv.1 = k
      · subst h
        simp
      · simp [h, Ne.symm h]
    · simp [lastMatch, hrest]

theorem mem_objKeys_addProperties (target source : Obj String) (pfx k : String) :
    k ∈ objKeys (addProperties target source pfx)
      ↔ k ∈ objKeys target ∨ ∃ k0, k0 ∈ objKeys source ∧ k = pfx ++ k0 := by
  induction source generalizing target with
  | nil => simp [addProperties, objKeys]
  | cons kv rest ih =>
    rw [addProperties_cons, ih]
    simp only [mem_objKeys_objSet, objKeys_cons, List.mem_cons]
    constructor
    · rintro ((hk | rfl) | ⟨k0, hk0, rfl⟩)
      · exact Or.inl hk
      · exact Or.inr ⟨kv.1, Or.inl rfl, rfl⟩
      · exact Or.inr ⟨k0, Or.inr hk0, rfl⟩
    · rintro (hk | ⟨k0, (rfl | hk0), rfl⟩)
      · exact Or.inl (Or.inl hk)
      · exact Or.inl (Or.inr rfl)
      · exact Or.inr ⟨k0, hk0, rfl⟩

theorem nodup_objKeys_addProperties (target source : Obj String) (pfx : String)
    (h : (objKeys target).Nodup) :
    (objKeys (addProperties target source pfx)).Nodup := by
  induction source generalizing target with
  | nil => exact h
  | cons kv rest ih =>
    rw [addProperties_cons]
    exact ih _ (nodup_objKeys_objSet _ _ _ h)

/-! ### The sort order -/

theorem charToNat_inj {a b : Char} (h : a.toNat = b.toNat) : a = b :=
  Char.ext (UInt32.toNat.inj h)

theorem strLeChars_total (a b : List Char) :
    strLeChars a b = true ∨ strLeChars b a = true := by
  induction a generalizing b with
  | nil => exact Or.inl rfl
  | cons c cs ih =>
    cases b with
    | nil => exact Or.inr rfl
    | cons d ds =>
      by_cases h : c = d
      · subst h
        simpa [strLeChars] using ih ds
      · have hne : c.toNat ≠ d.toNat := fun hn => h (charToNat_inj hn)
        simp only [strLeChars, if_neg h, if_neg (Ne.symm h)]
        rcases Nat.lt_or_ge c.toNat d.toNat with hlt | hge
        · exact Or.inl (by simpa using hlt)
        · exact Or.inr (by simpa using Nat.lt_of_le_of_ne hge (Ne.symm hne))

theorem strLeChars_trans {a b c : List Char} (hab : strLeChars a b = true)
    (hbc : strLeChars b c = true) : strLeChars a c = true := by
  induction a generalizing b c with
  | nil => rfl
  | cons x xs ih =>
    cases b with
    | nil => simp [strLeChars] at hab
    | cons y ys =>
      cases c with
      | nil => simp [strLeChars] at hbc
      | cons z zs =>
        by_cases hxy : x = y
        · subst hxy
          by_cases hxz : x = z
          · subst hxz
            simp only [strLeChars, if_pos rfl] at hab hbc ⊢
            exact ih hab hbc
          · simp only [strLeChars, if_pos rfl] at hab
            simpa [strLeChars, hxz] using hbc
        · by_cases hyz : y = z
          · subst hyz
            simpa [strLeChars, hxy] using hab
          · simp only [strLeChars, if_neg hxy] at hab
            simp only [strLeChars, if_neg hyz] at hbc
            have hxz : x.toNat < z.toNat :=
              Nat.lt_trans (by simpa using hab) (by simpa using hbc)
            have : x ≠ z := fun he => Nat.lt_irrefl _ (he ▸ hxz)
            simp [strLeChars, this, hxz]

theorem strLeChars_antisymm {a b : List Char} (hab : strLeChars a b = true)
    (hba : strLeChars b a = true) : a = b := by
  induction a generalizing b with
  | nil =>
    cases b with
    | nil => rfl
    | cons y ys => simp [strLeChars] at hba
  | cons x xs ih =>
    cases b with
    | nil => simp [strLeChars] at hab
    | cons y ys =>
      by_cases hxy : x = y
      · subst hxy
        simp only [strLeChars, if_pos rfl] at hab hba
        exact congrArg (x :: ·) (ih hab hba)
      · simp only [strLeChars, if_neg hxy, if_neg (Ne.symm hxy)] at hab hba
        exact absurd (Nat.lt_trans (by simpa using hab) (by simpa using hba))
          (Nat.lt_irrefl _)

theorem strLe_total (a b : String) : strLe a b = true ∨ strLe b a = true :=
  strLeChars_total a.toList b.toList

theorem strLe_trans {a b c : String} (hab : strLe a b = true)
    (hbc : strLe b c = true) : strLe a c = true :=
  strLeChars_trans hab hbc

theorem strLe_antisymm {a b : String} (hab : strLe a b = true)
    (hba : strLe b a = true) : a = b :=
  String.ext (strLeChars_antisymm hab hba)

/-! ### Sorting lemmas -/

theorem insertKey_perm (k : String) (l : List String) :
    List.Perm (insertKey k l) (k :: l) := by
  induction l with
  | nil => exact List.Perm.refl _
  | cons x xs ih =>
    simp only [insertKey]
    split
    · exact List.Perm.refl _
    · exact (ih.cons x).trans (List.Perm.swap k x xs)

theorem sortKeys_perm (l : List String) : List.Perm (sortKeys l) l := by
  induction l with
  | nil => exact List.Perm.refl _
  | cons k rest ih =>
    exact (insertKey_perm k (sortKeys rest)).trans (ih.cons k)

theorem mem_insertKey (b k : String) (l : List String) :
    b ∈ insertKey k l ↔ b = k ∨ b ∈ l := by
  simpa using (insertKey_perm k l).mem_iff

theorem insertKey_sorted (k : String) (l : List String)
    (h : l.Pairwise KeyLe) : (insertKey k l).Pairwise KeyLe := by
  induction l with
  | nil => simp [insertKey, List.Pairwise]
  | cons x xs ih =>
    simp only [insertKey]
    split
    · next hle =>
      refine List.Pairwise.cons ?_ h
      intro b hb
      rcases List.mem_cons.mp hb with rfl | hb
      · exact hle
      · exact strLe_trans hle (List.rel_of_pairwise_cons h hb)
    · next hle =>
      have hxk : KeyLe x k := by
        rcases strLe_total k x with hkx | hxk
        · exact absurd hkx hle
        · exact hxk
      refine List.Pairwise.cons ?_ (ih (List.Pairwise.sublist (List.sublist_cons_self x xs) h))
      intro b hb
      rcases (mem_insertKey b k xs).mp hb with rfl | hb
      · exact hxk
      · exact List.rel_of_pairwise_cons h hb

theorem sortKeys_sorted (l : List String) : (sortKeys l).Pairwise KeyLe := by
  induction l with
  | nil => simp [sortKeys, List.Pairwise]
  | cons k rest ih => exact insertKey_sorted k (sortKeys rest) ih

theorem sortKeys_eq_of_perm {l₁ l₂ : List String} (h : List.Perm l₁ l₂) :
    sortKeys l₁ = sortKeys l₂ := by
  have hp : List.Perm (sortKeys l₁) (sortKeys l₂) :=
    (sortKeys_perm l₁).trans (h.trans (sortKeys_perm l₂).symm)
  exact @List.eq_of_perm_of_sorted String KeyLe ⟨fun _ _ => strLe_antisymm⟩ _ _ hp
    (sortKeys_sorted l₁) (sortKeys_sorted l₂)

/-! ### Shape of `getPrefix` results -/

theorem append_dot_ne_empty (s : String) : s ++ "." ≠ "" := by
  intro h
  have := congrArg String.data h
  simp at this

theorem getPrefix_eq_append_dot (path : String) :
    ∃ s, getPrefix path = s ++ "." := by
  unfold getPrefix
  dsimp only
  split
  · split
    · exact ⟨_, rfl⟩
    · exact ⟨"core", rfl⟩
  · split
    · exact ⟨_, rfl⟩
    · split
      · exact ⟨_, rfl⟩
      · exact ⟨_, rfl⟩

theorem getPrefix_ne_empty (path : String) : getPrefix path ≠ "" := by
  obtain ⟨s, hs⟩ := getPrefix_eq_append_dot path
  exact hs ▸ append_dot_ne_empty s

/-! ### The merge fold -/

theorem mergedOf_eq (data : DataMap) :
    mergedOf data
      = data.foldl (fun m kv => addProperties m kv.2 (getPrefix kv.1)) [] := by
  unfold mergedOf
  congr 1
  funext m kv
  simp [getPrefix_ne_empty kv.1]

theorem mem_objKeys_foldl_merge (data : DataMap) (t : Obj String) (k : String) :
    k ∈ objKeys (data.foldl (fun m kv => addProperties m kv.2 (getPrefix kv.1)) t)
      ↔ k ∈ objKeys t
        ∨ ∃ p o, (p, o) ∈ data ∧ ∃ k0, k0 ∈ objKeys o ∧ k = getPrefix p ++ k0 := by
  induction data generalizing t with
  | nil => simp
  | cons kv rest ih =>
    obtain ⟨p', o'⟩ := kv
    rw [List.foldl_cons, ih, mem_objKeys_addProperties]
    simp only [List.mem_cons, Prod.mk.injEq]
    constructor
    · rintro ((hk | ⟨k0, hk0, rfl⟩) | ⟨p, o, hpo, k0, hk0, rfl⟩)
      · exact Or.inl hk
      · exact Or.inr ⟨p', o', Or.inl ⟨rfl, rfl⟩, k0, hk0, rfl⟩
      · exact Or.inr ⟨p, o, Or.inr hpo, k0, hk0, rfl⟩
    · rintro (hk | ⟨p, o, (⟨rfl, rfl⟩ | hpo), k0, hk0, rfl⟩)
      · exact Or.inl (Or.inl hk)
      · exact Or.inl (Or.inr ⟨k0, hk0, rfl⟩)
      · exact Or.inr ⟨p, o, hpo, k0, hk0, rfl⟩

theorem mem_objKeys_mergedOf (data : DataMap) (k : String) :
    k ∈ objKeys (mergedOf data)
      ↔ ∃ p o, (p, o) ∈ data ∧ ∃ k0, k0 ∈ objKeys o ∧ k = getPrefix p ++ k0 := by
  rw [mergedOf_eq, mem_objKeys_foldl_merge]
  simp [objKeys]

theorem nodup_objKeys_foldl_merge (data : DataMap) (t : Obj String)
    (h : (objKeys t).Nodup) :
    (objKeys (data.foldl (fun m kv => addProperties m kv.2 (getPrefix kv.1)) t)).Nodup := by
  induction data generalizing t with
  | nil => exact h
  | cons kv rest ih => exact ih _ (nodup_objKeys_addProperties _ _ _ h)

theorem nodup_objKeys_mergedOf (data : DataMap) :
    (objKeys (mergedOf data)).Nodup := by
  rw [mergedOf_eq]
  exact nodup_objKeys_foldl_merge data [] (by simp [objKeys])

/-! ### The reordering fold -/

theorem objKeys_orderBuild (m : Obj String) (l : List String) (mo : Obj String)
    (hnd : (objKeys mo ++ l).Nodup)
    (hmem : ∀ k ∈ l, k ∈ objKeys m) :
    objKeys (l.foldl (fun mo k =>
      match objGet m k with
      | some v => objSet mo k v
      | none => mo) mo) = objKeys mo ++ l := by
  induction l generalizing mo with
  | nil => simp
  | cons k rest ih =>
    rw [List.foldl_cons]
    obtain ⟨v, hv⟩ := (mem_objKeys_iff_objGet m k).mp (hmem k (by simp))
    have hknot : k ∉ objKeys mo := by
      intro hk
      rcases List.nodup_append.mp hnd with ⟨-, -, hdisj⟩
      exact hdisj hk (by simp)
    have hkeys : objKeys (objSet mo k v) = objKeys mo ++ [k] := by
      rw [objKeys_objSet, if_neg hknot]
    have hnd' : (objKeys (objSet mo k v) ++ rest).Nodup := by
      rw [hkeys, List.append_assoc, List.singleton_append]
      exact hnd
    have := ih (objSet mo k v) hnd' (fun k0 hk0 => hmem k0 (by simp [hk0]))
    simp only [hv] at this ⊢
    rw [this, hkeys, List.append_assoc, List.singleton_append]

theorem objKeys_orderObj (m : Obj String) (hnd : (objKeys m).Nodup) :
    objKeys (orderObj m) = sortKeys (objKeys m) := by
  have hperm := sortKeys_perm (objKeys m)
  have h := objKeys_orderBuild m (sortKeys (objKeys m)) []
    (by simpa [objKeys] using hperm.nodup_iff.mpr hnd)
    (fun k hk => hperm.mem_iff.mp hk)
  simpa [orderObj, objKeys] using h

/-! ### A closed form for merged values -/

theorem objGet_foldl_merge (data : DataMap) (t : Obj String) (k : String) :
    objGet (data.foldl (fun m kv => addProperties m kv.2 (getPrefix kv.1)) t) k =
      match mlookup data k with
      | some v => some v
      | none => objGet t k := by
  induction data generalizing t with
  | nil => rfl
  | cons a rest ih =>
    rw [List.foldl_cons, ih]
    rcases hrest : mlookup rest k with _ | v
    · simp only [mlookup, hrest, objGet_addProperties, contribOf]
    · simp [mlookup, hrest]

theorem objGet_mergedOf (data : DataMap) (k : String) :
    objGet (mergedOf data) k = mlookup data k := by
  rw [mergedOf_eq, objGet_foldl_merge]
  rcases mlookup data k with _ | v <;> simp [objGet]

theorem disjointContrib_symm {a b : String × Obj String}
    (h : DisjointContrib a b) : DisjointContrib b a :=
  fun k => (h k).symm

theorem mlookup_perm {d₁ d₂ : DataMap} (hp : List.Perm d₁ d₂) :
    d₁.Pairwise DisjointContrib → ∀ k, mlookup d₁ k = mlookup d₂ k := by
  induction hp with
  | nil => exact fun _ _ => rfl
  | cons a h ih =>
    intro hd k
    have ht := (List.pairwise_cons.mp hd).2
    simp only [mlookup]
    rw [ih ht k]
  | swap x y l =>
    intro hd k
    have hyx : DisjointContrib y x :=
      (List.pairwise_cons.mp hd).1 x (by simp)
    simp only [mlookup]
    rcases hl : mlookup l k with _ | v
    · rcases hx : contribOf x k with _ | vx <;>
        rcases hy : contribOf y k with _ | vy <;> simp
      rcases hyx k with h0 | h0
      · rw [h0] at hy; exact absurd hy (by simp)
      · rw [h0] at hx; exact absurd hx (by simp)
    · rfl
  | trans h₁ h₂ ih₁ ih₂ =>
    intro hd k
    rw [ih₁ hd k, ih₂ ((h₁.pairwise_iff disjointContrib_symm).mp hd) k]

/-! ### `lastMatch` helper lemmas -/

theorem strAppend_left_cancel {p a b : String} (h : p ++ a = p ++ b) : a = b := by
  have h2 : p.data ++ a.data = p.data ++ b.data := by
    simpa [String.data_append] using congrArg String.data h
  exact String.ext (List.append_cancel_left h2)

theorem lastMatch_none (pfx k' : String) (source : Obj String)
    (h : ∀ k0 ∈ objKeys source, pfx ++ k0 ≠ k') :
    lastMatch pfx k' source = none := by
  induction source with
  | nil => rfl
  | cons kv rest ih =>
    have hr := ih (fun k0 hk0 => h k0 (by simp [objKeys_cons, hk0]))
    have hk : pfx ++ kv.1 ≠ k' := h kv.1 (by simp [objKeys_cons])
    simp [lastMatch, hr, hk]

theorem lastMatch_of_nodup {source : Obj String} (pfx k : String) (v : String)
    (hnd : (objKeys source).Nodup) (hmem : (k, v) ∈ source) :
    lastMatch pfx (pfx ++ k) source = some v := by
  induction source with
  | nil => simp at hmem
  | cons kv rest ih =>
    rcases List.mem_cons.mp hmem with rfl | hmem'
    · have hknot : k ∉ objKeys rest := (List.nodup_cons.mp hnd).1
      have hr : lastMatch pfx (pfx ++ k) rest = none :=
        lastMatch_none _ _ _ (fun k0 hk0 heq =>
          hknot (strAppend_left_cancel heq ▸ hk0))
      simp [lastMatch, hr]
    · have hr := ih (List.nodup_cons.mp hnd).2 hmem'
      simp [lastMatch, hr]

/-! ### Claim theorems -/

/-- C4: when two artifacts produce the same prefixed key, the merged
result keeps the value written later: `addProperties` silently overwrites
an existing entry of `target` (it is a total function, so no error is
raised) and leaves every entry whose key is not one of the prefixed
source keys unchanged. -/
theorem addProperties_overwrite_spec (target source : Obj String) (pfx : String)
    (hnd : (objKeys source).Nodup) :
    (∀ k v, (k, v) ∈ source →
        objGet (addProperties target source pfx) (pfx ++ k) = some v)
    ∧ (∀ k', (∀ k0 ∈ objKeys source, pfx ++ k0 ≠ k') →
        objGet (addProperties target source pfx) k' = objGet target k') := by
  constructor
  · intro k v hmem
    rw [objGet_addProperties, lastMatch_of_nodup pfx k v hnd hmem]
  · intro k' h
    rw [objGet_addProperties, lastMatch_none pfx k' source h]

/-- Witness for C4: the later value `new` overwrites the existing entry
`a.x` of the target, and the unrelated entry `b` is untouched. -/
theorem addProperties_overwrite_spec_witness :
    (objKeys [("x", "new")]).Nodup
    ∧ objGet (addProperties [("a.x", "old"), ("b", "keep")] [("x", "new")] "a.")
        ("a." ++ "x") = some "new"
    ∧ objGet (addProperties [("a.x", "old"), ("b", "keep")] [("x", "new")] "a.") "b"
        = objGet [("a.x", "old"), ("b", "keep")] "b" :=
  ⟨by decide,
   (addProperties_overwrite_spec [("a.x", "old"), ("b", "keep")] [("x", "new")] "a."
      (by decide)).1 "x" "new" (by decide),
   (addProperties_overwrite_spec [("a.x", "old"), ("b", "keep")] [("x", "new")] "a."
      (by decide)).2 "b" (by decide)⟩

/-- C6: a file whose contents fail to parse contributes nothing: the
accumulated data after processing the whole batch is the same as if the
malformed file had not been in the batch at all, so every other valid
artifact is still merged and processing continues past it. -/
theorem treatFile_malformed_skipped (before after : List (String × Option (Obj String)))
    (path : String) (data : DataMap) :
    treatFiles (before ++ (path, none) :: after) data
      = treatFiles (before ++ after) data := by
  unfold treatFiles
  rw [List.foldl_append, List.foldl_append, List.foldl_cons]
  rfl

/-- C8 counterexample: for the `assets` path `assets/en` (a filename
without an extension) the returned prefix is `assets..`, which ends in
two `.` characters, not exactly one. -/
theorem getPrefix_trailing_dot_counterexample :
    getPrefix "assets/en" = "assets.."
    ∧ ∃ s, getPrefix "assets/en" = (s ++ ".") ++ "." := by
  refine ⟨by decide, "assets", by decide⟩

/-- C8 (amended): every prefix returned by `getPrefix` is a non-empty
string ending in a `.` delimiter (for `assets` filenames without a dot
and for `addons` paths with no intermediate folders, the prefix ends in
two dots, so `at least one` rather than `exactly one`). -/
theorem getPrefix_nonempty_trailing_dot (path : String) :
    getPrefix path ≠ "" ∧ ∃ s, getPrefix path = s ++ "." :=
  ⟨getPrefix_ne_empty path, getPrefix_eq_append_dot path⟩

/-- C9: the path-resolution step of `run` keeps a path ending in `.json`
unchanged, and maps every other path to the path with `lang.json`
appended, inserting the `/` separator only if the path does not already
end with one. -/
theorem resolveLangPath_spec (path : String) :
    (endsWithS path ".json" = true → resolveLangPath path = path)
    ∧ (endsWithS path ".json" = false →
        resolveLangPath path =
          if endsWithS path "/" = true then path ++ "lang.json"
          else path ++ "/lang.json") := by
  constructor
  · intro h
    simp [resolveLangPath, h]
  · intro h
    simp only [resolveLangPath, h, Bool.false_eq_true, if_false]
    split
    · rfl
    · rw [String.append_assoc, show ("/" ++ "lang.json" : String) = "/lang.json" from by decide]

/-- Witness for C9: `www/lang` does not end in `.json` nor in `/`, and
resolves to `www/lang/lang.json`. -/
theorem resolveLangPath_spec_witness :
    endsWithS "www/lang" ".json" = false
    ∧ resolveLangPath "www/lang" =
        if endsWithS "www/lang" "/" = true then "www/lang" ++ "lang.json"
        else "www/lang" ++ "/lang.json" :=
  ⟨by decide, (resolveLangPath_spec "www/lang").2 (by decide)⟩

/-- C10: when two files normalize to the same logical path, the later
file's entire parsed object replaces the earlier file's object in the
accumulated data: the result is as if the earlier file had been treated
never, so keys present only in the earlier file are gone before
prefixing ever happens. -/
theorem treatFile_same_logical_path_replaces (p1 p2 : String)
    (o1 o2 : Obj String) (data : DataMap)
    (h : treatFilePath p1 = treatFilePath p2) :
    treatFile p2 (some o2) (treatFile p1 (some o1) data)
      = treatFile p2 (some o2) data := by
  simp only [treatFile]
  rw [h, objSet_objSet_same]

/-- Witness for C10: two files in different checkouts share the logical
path `a.json`; the second file's object replaces the first one's whole
object, including the key `only1` present only in the first file. -/
theorem treatFile_same_logical_path_replaces_witness :
    treatFilePath "/x/src/a.json" = treatFilePath "/y/src/a.json"
    ∧ treatFile "/y/src/a.json" (some [("k", "2")])
        (treatFile "/x/src/a.json" (some [("k", "1"), ("only1", "z")]) [])
      = treatFile "/y/src/a.json" (some [("k", "2")]) [] :=
  ⟨by decide,
   treatFile_same_logical_path_replaces "/x/src/a.json" "/y/src/a.json"
     [("k", "1"), ("only1", "z")] [("k", "2")] [] (by decide)⟩

/-- C1: for every non-empty accumulated data object, `treatMergedData`
serializes `mergedOrderedOf data`, whose key set is exactly the union
over all artifacts of that artifact's prefix prepended to each of its
keys, and whose keys are listed in ascending lexicographic order. -/
theorem treatMergedData_union_sorted (data : DataMap) (hne : data ≠ []) :
    treatMergedData data = jsonStringify (mergedOrderedOf data)
    ∧ (∀ k, k ∈ objKeys (mergedOrderedOf data)
        ↔ ∃ p o, (p, o) ∈ data ∧ ∃ k0, k0 ∈ objKeys o ∧ k = getPrefix p ++ k0)
    ∧ (objKeys (mergedOrderedOf data)).Pairwise KeyLe := by
  refine ⟨rfl, ?_, ?_⟩
  · intro k
    unfold mergedOrderedOf
    rw [objKeys_orderObj _ (nodup_objKeys_mergedOf data),
      (sortKeys_perm _).mem_iff]
    exact mem_objKeys_mergedOf data k
  · unfold mergedOrderedOf
    rw [objKeys_orderObj _ (nodup_objKeys_mergedOf data)]
    exact sortKeys_sorted _

/-- Witness for C1 at the one-artifact data object `exData1`. -/
theorem treatMergedData_union_sorted_witness :
    exData1 ≠ []
    ∧ (treatMergedData exData1 = jsonStringify (mergedOrderedOf exData1)
      ∧ (∀ k, k ∈ objKeys (mergedOrderedOf exData1)
          ↔ ∃ p o, (p, o) ∈ exData1 ∧ ∃ k0, k0 ∈ objKeys o ∧ k = getPrefix p ++ k0)
      ∧ (objKeys (mergedOrderedOf exData1)).Pairwise KeyLe) :=
  ⟨by simp [exData1], treatMergedData_union_sorted exData1 (by simp [exData1])⟩

/-- C7 counterexample: two data objects holding the same two artifacts
in the two insertion orders, where both artifacts contribute the prefixed
key `core.x`; the serialized outputs differ (the later artifact wins), so
`treatMergedData` is not insensitive to arbitrary reorderings. -/
theorem treatMergedData_order_counterexample :
    List.Perm
      [(("core/a.json" : String), ([("x", "1")] : Obj String)), ("core/b.json", [("x", "2")])]
      [("core/b.json", [("x", "2")]), ("core/a.json", [("x", "1")])]
    ∧ treatMergedData [("core/a.json", [("x", "1")]), ("core/b.json", [("x", "2")])]
      ≠ treatMergedData [("core/b.json", [("x", "2")]), ("core/a.json", [("x", "1")])] := by
  refine ⟨List.Perm.swap _ _ _, ?_⟩
  decide

/-- C7 (amended): `treatMergedData` is insensitive to the order in which
entries were accumulated provided no prefixed key is contributed by two
different artifacts: for any permutation of a data object whose artifacts
have pairwise disjoint prefixed key sets, the output buffers are
byte-identical. -/
theorem treatMergedData_perm_invariant (d₁ d₂ : DataMap)
    (hp : List.Perm d₁ d₂) (hd : d₁.Pairwise DisjointContrib) :
    treatMergedData d₁ = treatMergedData d₂ := by
  have hget : ∀ k, objGet (mergedOf d₁) k = objGet (mergedOf d₂) k := fun k => by
    rw [objGet_mergedOf, objGet_mergedOf, mlookup_perm hp hd k]
  have hkeys : List.Perm (objKeys (mergedOf d₁)) (objKeys (mergedOf d₂)) := by
    refine (List.perm_ext_iff_of_nodup (nodup_objKeys_mergedOf d₁)
      (nodup_objKeys_mergedOf d₂)).mpr ?_
    intro k
    rw [mem_objKeys_iff_objGet, mem_objKeys_iff_objGet, hget k]
  have hsort := sortKeys_eq_of_perm hkeys
  have hstep :
      (fun (mo : Obj String) k =>
        match objGet (mergedOf d₁) k with
        | some v => objSet mo k v
        | none => mo)
      = (fun (mo : Obj String) k =>
        match objGet (mergedOf d₂) k with
        | some v => objSet mo k v
        | none => mo) := by
    funext mo k
    rw [hget k]
  unfold treatMergedData mergedOrderedOf orderObj
  rw [hsort, hstep]

/-- Witness for C7: the two orders of `exD1`/`exD2` produce identical
output; the second artifact's object is empty, so the contributions are
disjoint. -/
theorem treatMergedData_perm_invariant_witness :
    List.Perm exD1 exD2 ∧ exD1.Pairwise DisjointContrib
    ∧ treatMergedData exD1 = treatMergedData exD2 := by
  have hp : List.Perm exD1 exD2 := List.Perm.swap _ _ _
  have hd : exD1.Pairwise DisjointContrib := by
    refine List.pairwise_cons.mpr ⟨?_, List.pairwise_singleton _ _⟩
    intro b hb
    rcases List.mem_singleton.mp hb with rfl
    exact fun k => Or.inr rfl
  exact ⟨hp, hd, treatMergedData_perm_invariant exD1 exD2 hp hd⟩

/-- C2 counterexample: the path `core/features/x` has first segment
`core`, second segment `features` and third segment `x`, so the claim
requires the prefix `core.x.`; the code pops the final segment as the
filename first, leaving no third folder, and returns `core.undefined.`. -/
theorem getPrefix_core_features_counterexample :
    splitPath "core/features/x" = ["core", "features", "x"]
    ∧ getPrefix "core/features/x" = "core.undefined."
    ∧ getPrefix "core/features/x" ≠ "core." ++ "x" ++ "." := by
  refine ⟨by decide, by decide, by decide⟩

/-- C2 (amended): the routing rules for `core` and `addons` read the
segments left after the final segment (the filename) is removed, so they
hold as claimed only with enough segments: a path of at least four
segments starting `core/features` maps to `core.<third-segment>.`; a
path of at least two segments starting with `core` whose second segment
is not `features` maps to `core.`; a path of at least two segments
starting with `addons` maps to `addon.` followed by the segments strictly
between the first and the last joined with `_`, followed by `.`. -/
theorem getPrefix_core_addons_rules (path : String) :
    (∀ c rest, splitPath path = "core" :: "features" :: c :: rest → rest ≠ [] →
      getPrefix path = "core." ++ c ++ ".")
    ∧ (∀ s rest, splitPath path = "core" :: s :: rest → s ≠ "features" →
      getPrefix path = "core.")
    ∧ (∀ rest, splitPath path = "addons" :: rest → rest ≠ [] →
      getPrefix path = "addon." ++ joinSep "_" rest.dropLast ++ ".") := by
  refine ⟨?_, ?_, ?_⟩
  · intro c rest heq hne
    rcases rest with _ | ⟨r, rs⟩
    · exact absurd rfl hne
    · unfold getPrefix
      dsimp only
      rw [heq]
      simp [jsIdx]
  · intro s rest heq hs
    rcases rest with _ | ⟨r, rs⟩
    · unfold getPrefix
      dsimp only
      rw [heq]
      simp [jsIdx]
    · unfold getPrefix
      dsimp only
      rw [heq]
      simp [jsIdx, hs]
  · intro rest heq hne
    rcases rest with _ | ⟨r, rs⟩
    · exact absurd rfl hne
    · unfold getPrefix
      dsimp only
      rw [heq]
      simp [jsIdx]

/-- Witness for C2 at the spec's own example `addons/mod/forum/strings.json`,
whose prefix is `addon.mod_forum.`. -/
theorem getPrefix_core_addons_rules_witness :
    splitPath "addons/mod/forum/strings.json"
      = ["addons", "mod", "forum", "strings.json"]
    ∧ (["mod", "forum", "strings.json"] : List String) ≠ []
    ∧ getPrefix "addons/mod/forum/strings.json"
        = "addon." ++ joinSep "_" (["mod", "forum", "strings.json"] : List String).dropLast ++ "."
    ∧ getPrefix "addons/mod/forum/strings.json" = "addon.mod_forum." :=
  ⟨by decide, by decide,
   (getPrefix_core_addons_rules "addons/mod/forum/strings.json").2.2
     ["mod", "forum", "strings.json"] (by decide) (by decide),
   by decide⟩

/-- C3 counterexample: the path `custom/strings.json` has first segment
`custom` (none of `core`, `addons`, `assets`) and second segment
`strings.json`, so the claim requires `custom.strings.json.`; the code
pops `strings.json` as the filename first, leaving no second folder, and
returns `custom.undefined.`. -/
theorem getPrefix_default_counterexample :
    splitPath "custom/strings.json" = ["custom", "strings.json"]
    ∧ getPrefix "custom/strings.json" = "custom.undefined."
    ∧ getPrefix "custom/strings.json" ≠ "custom." ++ "strings.json" ++ "." := by
  refine ⟨by decide, by decide, by decide⟩

/-- C3 (amended): a path of at least two segments whose first segment is
`assets` maps to `assets.<stem>.` where the stem is the final segment
split on dots with the last piece dropped and rejoined (the text before
the final segment's last dot; empty when the final segment has no dot);
a path of at least three segments whose first segment is none of `core`,
`addons`, `assets` maps to `<first-segment>.<second-segment>.`. -/
theorem getPrefix_assets_default_rules (path : String) :
    (∀ rest fn, splitPath path = "assets" :: rest → rest.getLast? = some fn →
      getPrefix path = "assets."
        ++ joinSep "." (((splitChars (fun c => c == '.') fn.toList).map String.mk).dropLast)
        ++ ".")
    ∧ (∀ a b rest, splitPath path = a :: b :: rest → rest ≠ [] →
      a ≠ "core" → a ≠ "addons" → a ≠ "assets" →
      getPrefix path = a ++ "." ++ b ++ ".") := by
  constructor
  · intro rest fn heq hlast
    rcases rest with _ | ⟨r, rs⟩
    · simp at hlast
    · unfold getPrefix
      dsimp only
      rw [heq]
      have hl : (("assets" : String) :: r :: rs).getLast? = some fn := by
        rw [List.getLast?_cons_cons]
        exact hlast
      rw [hl]
      simp [jsIdx]
  · intro a b rest heq hne ha hb hc
    rcases rest with _ | ⟨r, rs⟩
    · exact absurd rfl hne
    · unfold getPrefix
      dsimp only
      rw [heq]
      simp [jsIdx, ha, hb, hc]

/-- Witness for C3 at the spec's own example `assets/en.json`, whose
prefix is `assets.en.`. -/
theorem getPrefix_assets_default_rules_witness :
    splitPath "assets/en.json" = ["assets", "en.json"]
    ∧ (["en.json"] : List String).getLast? = some "en.json"
    ∧ getPrefix "assets/en.json"
        = "assets."
          ++ joinSep "." (((splitChars (fun c => c == '.') "en.json".toList).map String.mk).dropLast)
          ++ "."
    ∧ getPrefix "assets/en.json" = "assets.en." :=
  ⟨by decide, by decide,
   (getPrefix_assets_default_rules "assets/en.json").1 ["en.json"] "en.json"
     (by decide) (by decide),
   by decide⟩

/-- C5 counterexample: `foo.json` contains no source-root marker, yet
`treatFile` does not skip it: the parsed contents are stored in the
accumulated data (under the garbled logical path `json`, the path with
its first four characters dropped), so the file does contribute. -/
theorem treatFile_no_marker_counterexample :
    lastIdx "foo.json".toList "/src/app/".toList = none
    ∧ lastIdx "foo.json".toList "\\src\\app\\".toList = none
    ∧ lastIdx "foo.json".toList "/src/".toList = none
    ∧ lastIdx "foo.json".toList "\\src\\".toList = none
    ∧ treatFile "foo.json" (some [("a", "b")]) [] = [("json", [("a", "b")])]
    ∧ ([("json", ([("a", "b")] : Obj String))] : DataMap) ≠ [] := by
  refine ⟨by decide, by decide, by decide, by decide, by decide, by decide⟩

/-- C5 (amended): a parsed file whose path contains neither marker is
not skipped: `treatFile` stores its contents in the accumulated data
under the path with its first four characters dropped
(`substr(srcPos + prefixLength)` with `srcPos = -1` and
`prefixLength = 5`); no exception escapes, so the remaining files are
still processed. -/
theorem treatFile_no_marker_adds (path : String) (o : Obj String) (data : DataMap)
    (h1 : lastIdx path.toList "/src/app/".toList = none)
    (h2 : lastIdx path.toList "\\src\\app\\".toList = none)
    (h3 : lastIdx path.toList "/src/".toList = none)
    (h4 : lastIdx path.toList "\\src\\".toList = none) :
    treatFile path (some o) data
      = objSet data (String.mk (path.toList.drop 4)) o := by
  simp only [treatFile, treatFilePath, h1, h2, h3, h4]

/-- Witness for C5: the marker-free file `foo.json` is merged under the
garbled key `json`. -/
theorem treatFile_no_marker_adds_witness :
    lastIdx "foo.json".toList "/src/app/".toList = none
    ∧ lastIdx "foo.json".toList "\\src\\app\\".toList = none
    ∧ lastIdx "foo.json".toList "/src/".toList = none
    ∧ lastIdx "foo.json".toList "\\src\\".toList = none
    ∧ treatFile "foo.json" (some [("k", "v")]) [("other", [])]
        = objSet [("other", [])] (String.mk ("foo.json".toList.drop 4)) [("k", "v")] :=
  ⟨by decide, by decide, by decide, by decide,
   treatFile_no_marker_adds "foo.json" [("k", "v")] [("other", [])]
     (by decide) (by decide) (by decide) (by decide)⟩

end BuildLang
